import Mathlib

/-!
Shallow embedding of `plspm` (files `src/plspm/inner_model.py` and
`src/plspm/outer_model.py`).  Latent variables are indexed by `Fin m`
(the column order of the pandas tables), cases by `Fin c`, and all
numeric values live in `ℚ` so that every definition is executable.
-/

namespace Plspm

/-! ### `_effects` (inner_model.py lines 33-61)

`_effects` receives the fitted path-coefficients matrix.  Pandas row
label = "to", column label = "from", so `path i j` is the weight of the
arrow `j → i`.  The loop

    path_effects[0] = path
    for i in range(1, num_lvs):
        path_effects[i] = path_effects[i - 1].dot(path)
        indirect_paths = indirect_paths + path_effects[i]

is embedded as an iteration carrying the pair
(current `path_effects[i]`, accumulated `indirect_paths`). -/

/-- One step of the `for i in range(1, num_lvs)` loop of `_effects`,
iterated `fuel` times: the state is `(path_effects[i-1], indirect_paths)`. -/
def effectsIter {m : ℕ} (path : Matrix (Fin m) (Fin m) ℚ) :
    Matrix (Fin m) (Fin m) ℚ → Matrix (Fin m) (Fin m) ℚ → ℕ →
    Matrix (Fin m) (Fin m) ℚ × Matrix (Fin m) (Fin m) ℚ
  | pe, ind, 0 => (pe, ind)
  | pe, ind, k + 1 => effectsIter path (pe * path) (ind + pe * path) k

/-- The `indirect_paths` matrix produced by the general (`else`) branch of
`_effects`: `range(1, num_lvs)` runs `num_lvs - 1` times. -/
def indirectLoop {m : ℕ} (path : Matrix (Fin m) (Fin m) ℚ) :
    Matrix (Fin m) (Fin m) ℚ :=
  (effectsIter path path 0 (m - 1)).2

/-- The `total_paths` matrix of the general branch: `path + indirect_paths`. -/
def totalLoop {m : ℕ} (path : Matrix (Fin m) (Fin m) ℚ) :
    Matrix (Fin m) (Fin m) ℚ :=
  path + indirectLoop path

/-- Matrix `indirect_paths` as `_effects` leaves it: the initial zero matrix when
`num_lvs == 2` (the dedicated branch never touches it), otherwise the loop
accumulation. -/
def indirectPaths {m : ℕ} (path : Matrix (Fin m) (Fin m) ℚ) :
    Matrix (Fin m) (Fin m) ℚ :=
  if m = 2 then 0 else indirectLoop path

/-- Matrix `total_paths` as `_effects` computes it: `path` itself when
`num_lvs == 2`, otherwise `path + indirect_paths`. -/
def totalPaths {m : ℕ} (path : Matrix (Fin m) (Fin m) ℚ) :
    Matrix (Fin m) (Fin m) ℚ :=
  if m = 2 then path else totalLoop path

/-- A row of the effects table: `from`, `to`, direct, indirect and total
effect (columns of the `effects` dataframe built in `_effects`). -/
structure EffectRow (m : ℕ) where
  src : Fin m
  dst : Fin m
  direct : ℚ
  indirect : ℚ
  total : ℚ
deriving DecidableEq, Repr

/-- The row appended for the pair `(from_lv, to_lv)`: values looked up at
`[to_lv, from_lv]` of the direct / indirect / total matrices. -/
def mkEffectRow {m : ℕ} (path ind tot : Matrix (Fin m) (Fin m) ℚ)
    (src dst : Fin m) : EffectRow m :=
  ⟨src, dst, path dst src, ind dst src, tot dst src⟩

/-- The double loop of `_effects` emitting one row per ordered pair
`(from_lv, to_lv)` with `from_lv != to_lv` and nonzero total effect,
given the three matrices. -/
def effectsTableWith {m : ℕ} (path ind tot : Matrix (Fin m) (Fin m) ℚ) :
    List (EffectRow m) :=
  (List.finRange m).flatMap fun src =>
    (List.finRange m).filterMap fun dst =>
      if src ≠ dst ∧ tot dst src ≠ 0 then
        some (mkEffectRow path ind tot src dst)
      else none

/-- The effects table returned by `_effects path`. -/
def effectsTable {m : ℕ} (path : Matrix (Fin m) (Fin m) ℚ) :
    List (EffectRow m) :=
  effectsTableWith path (indirectPaths path) (totalPaths path)

/-! ### Ordinary least squares (the `sm.OLS(...).fit()` call)

`statsmodels` is an external library: we model `OLS(y, X).fit()` by the
normal-equations solution `β = (XᵀX)⁻¹ Xᵀ y` (identical to the library's
pseudo-inverse solution whenever `XᵀX` is invertible) and its
`rsquared = 1 - ssr / centered_tss` (the centered total sum of squares is
the statsmodels definition when a constant column is present). -/

/-- Inverse of a square rational matrix via the adjugate; yields junk when
the determinant is zero, matching the junk-value convention of `ℚ`. -/
def qInv {k : ℕ} (A : Matrix (Fin k) (Fin k) ℚ) : Matrix (Fin k) (Fin k) ℚ :=
  (A.det)⁻¹ • A.adjugate

/-- The OLS coefficient vector `(XᵀX)⁻¹ Xᵀ y`. -/
def olsBeta {c k : ℕ} (X : Matrix (Fin c) (Fin k) ℚ) (y : Fin c → ℚ) :
    Fin k → ℚ :=
  (qInv (X.transpose * X)).mulVec (X.transpose.mulVec y)

/-- Mean of the response vector. -/
def meanVec {c : ℕ} (y : Fin c → ℚ) : ℚ := (∑ i, y i) / (c : ℚ)

/-- Residual sum of squares of the OLS fit. -/
def ssrOLS {c k : ℕ} (X : Matrix (Fin c) (Fin k) ℚ) (y : Fin c → ℚ) : ℚ :=
  ∑ i, (y i - X.mulVec (olsBeta X y) i) ^ 2

/-- Centered total sum of squares of the response. -/
def tssOLS {c : ℕ} (y : Fin c → ℚ) : ℚ :=
  ∑ i, (y i - meanVec y) ^ 2

/-- Value `regression.rsquared`: `1 - ssr / centered_tss`. -/
def rsquaredOLS {c k : ℕ} (X : Matrix (Fin c) (Fin k) ℚ) (y : Fin c → ℚ) : ℚ :=
  1 - ssrOLS X y / tssOLS y

/-! ### `InnerModel.__init__` (inner_model.py lines 66-83)

`path : Matrix (Fin m) (Fin m) ℚ` is the path matrix (row = `to`,
column = `from`), `scores : Matrix (Fin c) (Fin m) ℚ` has one row per
case and one column per latent variable. -/

/-- Row sum of the path matrix for `dv` (`path.loc[dv].sum()`). -/
def rowSum {m : ℕ} (path : Matrix (Fin m) (Fin m) ℚ) (dv : Fin m) : ℚ :=
  ∑ j, path dv j

/-- Series `endogenous = path.sum(axis=1).astype(bool)`: `dv` is endogenous iff
its row sum is nonzero. -/
def endog {m : ℕ} (path : Matrix (Fin m) (Fin m) ℚ) (dv : Fin m) : Prop :=
  rowSum path dv ≠ 0

instance {m : ℕ} (path : Matrix (Fin m) (Fin m) ℚ) (dv : Fin m) :
    Decidable (endog path dv) := by
  unfold endog
  infer_instance

/-- List `self.__endogenous`: the latent variables with nonzero row sum, in
column order. -/
def endogenousList {m : ℕ} (path : Matrix (Fin m) (Fin m) ℚ) :
    List (Fin m) :=
  (List.finRange m).filter fun dv => decide (endog path dv)

/-- Index `ivs = path.loc[dv,][path.loc[dv,] == 1].index`: predictors of `dv`
are the columns whose entry equals `1`, in column order. -/
def predList {m : ℕ} (path : Matrix (Fin m) (Fin m) ℚ) (dv : Fin m) :
    List (Fin m) :=
  (List.finRange m).filter fun j => decide (path dv j = 1)

/-- Table `sm.add_constant(scores.loc[:, ivs])`: the design matrix with the
constant column first, then the predictor score columns in `ivs` order. -/
def design {m c : ℕ} (scores : Matrix (Fin c) (Fin m) ℚ)
    (ivs : List (Fin m)) : Matrix (Fin c) (Fin (ivs.length + 1)) ℚ :=
  fun i k => Fin.cases 1 (fun j => scores i (ivs.get j)) k

/-- Column `scores.loc[:, dv]`. -/
def yCol {m c : ℕ} (scores : Matrix (Fin c) (Fin m) ℚ) (dv : Fin m) :
    Fin c → ℚ :=
  fun i => scores i dv

/-- Matrix `self.__path_coefficients`: initialised to zero; for every endogenous
`dv` the assignment `.loc[dv, ivs] = regression.params` writes, for each
predictor `j`, the fitted coefficient at position `indexOf j + 1` of the
parameter vector (position 0 is the intercept, which pandas label
alignment skips).  Cells never written keep their initial `0`. -/
def pathCoef {m c : ℕ} (path : Matrix (Fin m) (Fin m) ℚ)
    (scores : Matrix (Fin c) (Fin m) ℚ) : Matrix (Fin m) (Fin m) ℚ :=
  fun dv j =>
    if h : endog path dv ∧ j ∈ predList path dv then
      olsBeta (design scores (predList path dv)) (yCol scores dv)
        ⟨(predList path dv).indexOf j + 1,
          Nat.succ_lt_succ (List.indexOf_lt_length.mpr h.2)⟩
    else 0

/-- Series `self.__r_squared`: initialised to `0.0`, overwritten with
`regression.rsquared` for each endogenous `dv`. -/
def rSq {m c : ℕ} (path : Matrix (Fin m) (Fin m) ℚ)
    (scores : Matrix (Fin c) (Fin m) ℚ) (dv : Fin m) : ℚ :=
  if endog path dv then
    rsquaredOLS (design scores (predList path dv)) (yCol scores dv)
  else 0

/-- Series `self.__r_squared_adj`: initialised to `0.0`, overwritten with
`1 - (1 - rsquared) * (rows - 1) / (rows - path.loc[dv].sum() - 1)`. -/
def rSqAdj {m c : ℕ} (path : Matrix (Fin m) (Fin m) ℚ)
    (scores : Matrix (Fin c) (Fin m) ℚ) (dv : Fin m) : ℚ :=
  if endog path dv then
    1 - (1 - rSq path scores dv) * ((c : ℚ) - 1) /
        ((c : ℚ) - rowSum path dv - 1)
  else 0

/-- A row of the per-path summary table built by `_summary`: source,
target and coefficient estimate.  (`std error`, `t` and `p>|t|` are
further columns of the same row, read off the fitted statsmodels
regression object; they play no role in any property below.) -/
structure SummaryRow (m : ℕ) where
  src : Fin m
  dst : Fin m
  estimate : ℚ
deriving DecidableEq, Repr

/-- Table `_summary(dv, regression)` minus the dropped `const` row: one row per
predictor of `dv`, in `ivs` order. -/
def summaryRows {m c : ℕ} (path : Matrix (Fin m) (Fin m) ℚ)
    (scores : Matrix (Fin c) (Fin m) ℚ) (dv : Fin m) :
    List (SummaryRow m) :=
  (predList path dv).map fun iv => ⟨iv, dv, pathCoef path scores dv iv⟩

/-- Field `self.__summaries`: starts as the `None` sentinel; each loop iteration
replaces it by the concatenation with the new summary rows (`pd.concat`
drops a `None` entry).  It remains `none` exactly when the loop body
never runs. -/
def summariesOpt {m c : ℕ} (path : Matrix (Fin m) (Fin m) ℚ)
    (scores : Matrix (Fin c) (Fin m) ℚ) : Option (List (SummaryRow m)) :=
  (endogenousList path).foldl
    (fun acc dv => some (acc.getD [] ++ summaryRows path scores dv)) none

/-- The `inner_model()` accessor: `self.__summaries.set_index(['index'])`.
Calling `.set_index` on the `None` sentinel raises, which the embedding
renders as `none`; on a real table it returns the rows keyed by the
composite `from -> to` label. -/
def innerModelAccessor {m c : ℕ} (path : Matrix (Fin m) (Fin m) ℚ)
    (scores : Matrix (Fin c) (Fin m) ℚ) :
    Option (List ((Fin m × Fin m) × SummaryRow m)) :=
  (summariesOpt path scores).map fun rows =>
    rows.map fun r => ((r.src, r.dst), r)

/-- Field `self.__effects = _effects(self.__path_coefficients)`. -/
def innerEffects {m c : ℕ} (path : Matrix (Fin m) (Fin m) ℚ)
    (scores : Matrix (Fin c) (Fin m) ℚ) : List (EffectRow m) :=
  effectsTable (pathCoef path scores)

/-! ### `OuterModel.__init__` (outer_model.py lines 23-32)

Indicators are indexed by `Fin p`, latent variables by `Fin m`.  The
cross-loadings matrix (`y.apply(lambda s: data.corrwith(s))`, Pearson
correlations of indicators with latent scores) is taken as an input `cl`:
the numbered steps below combine it with the outer design matrix `odm`
and the R² series exactly as the source does. -/

/-- Column `loading = (crossloadings * odm).sum(axis=1)`: element-wise product,
then row sums. -/
def loading {p m : ℕ} (cl odm : Matrix (Fin p) (Fin m) ℚ) (i : Fin p) : ℚ :=
  ∑ j, cl i j * odm i j

/-- Column `communality = loading.apply(lambda s: pow(s, 2))`. -/
def communality {p m : ℕ} (cl odm : Matrix (Fin p) (Fin m) ℚ)
    (i : Fin p) : ℚ :=
  loading cl odm i ^ 2

/-- Column `r_squared_aux = odm.dot(diag(r_squared)).sum(axis=1)`. -/
def rSquaredAux {p m : ℕ} (odm : Matrix (Fin p) (Fin m) ℚ)
    (r2 : Fin m → ℚ) (i : Fin p) : ℚ :=
  ∑ j, (odm * Matrix.diagonal r2) i j

/-- Column `redundancy = communality * r_squared_aux` (element-wise). -/
def redundancy {p m : ℕ} (cl odm : Matrix (Fin p) (Fin m) ℚ)
    (r2 : Fin m → ℚ) (i : Fin p) : ℚ :=
  communality cl odm i * rSquaredAux odm r2 i

/-! ### Label-level model of `InnerModel` construction

The pandas tables are label-indexed; the lookups `InnerModel.__init__`
performs against the scores table are `scores.loc[:, ivs]` and
`scores.loc[:, dv]`, which raise a `KeyError` when a requested label is
absent from the scores columns.  Every other table it builds is indexed
by the path matrix's own labels and cannot fail.  The model below
replays exactly those lookups: `lvs` is the path matrix's label list,
`path` the matrix by label, `scoreCols` the column labels of the scores
table, and the result is `.ok` when construction completes and `.error`
when a lookup raises. -/

/-- The per-`dv` body of the construction loop: `scores.loc[:, ivs]`
(which requires every predictor label) then `scores.loc[:, dv]`. -/
def lookupsFor (lvs : List String) (path : String → String → ℚ)
    (scoreCols : List String) (dv : String) : Except String Unit :=
  match (lvs.filter fun j => decide (path dv j = 1)).find?
      (fun j => decide (j ∉ scoreCols)) with
  | some j => .error ("KeyError: " ++ j)
  | none => if dv ∈ scoreCols then .ok () else .error ("KeyError: " ++ dv)

/-- Method `InnerModel.__init__` at label level: run the loop body for every
endogenous label (nonzero row sum over the path columns) in order,
stopping at the first failed lookup. -/
def innerConstruct (lvs : List String) (path : String → String → ℚ)
    (scoreCols : List String) : Except String Unit :=
  (lvs.filter fun dv => decide ((lvs.map (path dv)).sum ≠ 0)).foldlM
    (fun _ dv => lookupsFor lvs path scoreCols dv) ()

/-! ### Concrete inputs used to instantiate the theorems below -/

/-- A 2-variable path matrix with the single arrow `0 → 1`. -/
def path2 : Matrix (Fin 2) (Fin 2) ℚ := Matrix.of ![![0, 0], ![1, 0]]

/-- Four cases of scores for the two latent variables. -/
def scores24 : Matrix (Fin 4) (Fin 2) ℚ :=
  Matrix.of ![![0, 0], ![1, 1], ![2, 2], ![3, 4]]

/-- A 3-variable chain `0 → 1 → 2`. -/
def path3 : Matrix (Fin 3) (Fin 3) ℚ :=
  Matrix.of ![![0, 0, 0], ![1, 0, 0], ![0, 1, 0]]

/-- One case of scores for the three latent variables. -/
def scores31 : Matrix (Fin 1) (Fin 3) ℚ := Matrix.of ![![1, 2, 3]]

/-- A 2-variable fitted path-coefficients matrix: arrow `0 → 1` with
weight `1/2`. -/
def coef2 : Matrix (Fin 2) (Fin 2) ℚ := Matrix.of ![![0, 0], ![1/2, 0]]

/-- Cross-loadings of two indicators on two latent variables. -/
def cl2 : Matrix (Fin 2) (Fin 2) ℚ := Matrix.of ![![1/2, 1/4], ![1/3, 1]]

/-- Outer design matrix: indicator 0 belongs to latent variable 0,
indicator 1 to latent variable 1. -/
def odm2 : Matrix (Fin 2) (Fin 2) ℚ := Matrix.of ![![1, 0], ![0, 1]]

/-- An R² series for the two latent variables. -/
def r22 : Fin 2 → ℚ := ![0, 3/4]

/-- The design matrix of the regression of `scores24[:,1]` on
`scores24[:,0]` with an intercept. -/
def X4 : Matrix (Fin 4) (Fin 2) ℚ :=
  Matrix.of ![![1, 0], ![1, 1], ![1, 2], ![1, 3]]

/-- Labels of a 3-variable path matrix. -/
def lvsABC : List String := ["A", "B", "C"]

/-- Label-level path matrix with the single arrow `A → B`. -/
def cpathAB : String → String → ℚ :=
  fun d j => if d = "B" ∧ j = "A" then 1 else 0

/-- Score columns missing label `C`. -/
def colsAB : List String := ["A", "B"]

end Plspm

namespace Plspm

/-! ## Helper lemmas -/

/-- Closed form of the `_effects` loop state: starting from
`path_effects = P ^ (j + 1)`, after `k` iterations the accumulated
indirect matrix has grown by `∑ i < k, P ^ (j + 2 + i)`. -/
theorem effectsIter_closed {m : ℕ} (P : Matrix (Fin m) (Fin m) ℚ) :
    ∀ (k j : ℕ) (ind : Matrix (Fin m) (Fin m) ℚ),
      effectsIter P (P ^ (j + 1)) ind k =
        (P ^ (k + j + 1), ind + ∑ i in Finset.range k, P ^ (j + 2 + i)) := by
  intro k
  induction k with
  | zero => intro j ind; simp [effectsIter]
  | succ k ih =>
      intro j ind
      have h1 : P ^ (j + 1) * P = P ^ (j + 1 + 1) := (pow_succ P (j + 1)).symm
      simp only [effectsIter, h1]
      rw [ih (j + 1) (ind + P ^ (j + 1 + 1))]
      have e1 : k + (j + 1) + 1 = k + 1 + j + 1 := by omega
      have e2 : ind + P ^ (j + 1 + 1) + ∑ i in Finset.range k, P ^ (j + 1 + 2 + i)
          = ind + ∑ i in Finset.range (k + 1), P ^ (j + 2 + i) := by
        rw [Finset.sum_range_succ']
        have e3 : ∀ i, P ^ (j + 1 + 2 + i) = P ^ (j + 2 + (i + 1)) := by
          intro i; congr 1; omega
        have e4 : P ^ (j + 1 + 1) = P ^ (j + 2 + 0) := by congr 1
        simp only [e3, e4]
        abel
      rw [e1, e2]

/-- The general-branch indirect matrix is the power sum
`∑ i < m - 1, P ^ (i + 2)`. -/
theorem indirectLoop_eq {m : ℕ} (P : Matrix (Fin m) (Fin m) ℚ) :
    indirectLoop P = ∑ i in Finset.range (m - 1), P ^ (i + 2) := by
  have h := effectsIter_closed P (m - 1) 0 0
  rw [pow_one] at h
  rw [indirectLoop, h]
  dsimp only
  rw [zero_add]
  exact Finset.sum_congr rfl fun i _ =>
    show P ^ (0 + 2 + i) = P ^ (i + 2) from
      congrArg (fun k : ℕ => P ^ k) (by omega)

/-- Claim C1: for a path matrix with more than 2 latent variables,
`_effects` applied to the fitted path-coefficients matrix `P` forms the
matrix power series: writing `path_effects[k] = P ^ (k + 1)`, we have
`path_effects[0] = P`, `path_effects[k] = path_effects[k-1] · P`, the
indirect-effects matrix equals `∑ k = 1 .. num_lvs - 1, path_effects[k]`,
and the total-effects matrix is the direct matrix plus that sum. -/
theorem effects_power_series {m c : ℕ} (hm : 2 < m)
    (path : Matrix (Fin m) (Fin m) ℚ) (scores : Matrix (Fin c) (Fin m) ℚ) :
    (pathCoef path scores) ^ (0 + 1) = pathCoef path scores ∧
    (∀ k : ℕ, (pathCoef path scores) ^ (k + 1 + 1)
        = (pathCoef path scores) ^ (k + 1) * pathCoef path scores) ∧
    indirectPaths (pathCoef path scores)
        = ∑ k in Finset.Icc 1 (m - 1), (pathCoef path scores) ^ (k + 1) ∧
    totalPaths (pathCoef path scores)
        = pathCoef path scores + indirectPaths (pathCoef path scores) := by
  have hm2 : m ≠ 2 := by omega
  set P := pathCoef path scores with hP
  refine ⟨by rw [zero_add, pow_one], fun k => pow_succ P (k + 1), ?_, ?_⟩
  · rw [indirectPaths, if_neg hm2, indirectLoop_eq]
    rw [← Nat.Ico_succ_right, Finset.sum_Ico_eq_sum_range]
    exact (Finset.sum_congr rfl fun i _ => by congr 1; omega).symm
  · rw [totalPaths, if_neg hm2, totalLoop, indirectPaths, if_neg hm2]

/-- Witness for C1 at the concrete 3-variable chain. -/
theorem effects_power_series_witness :
    2 < 3 ∧
    ((pathCoef path3 scores31) ^ (0 + 1) = pathCoef path3 scores31 ∧
     (∀ k : ℕ, (pathCoef path3 scores31) ^ (k + 1 + 1)
         = (pathCoef path3 scores31) ^ (k + 1) * pathCoef path3 scores31) ∧
     indirectPaths (pathCoef path3 scores31)
         = ∑ k in Finset.Icc 1 (3 - 1), (pathCoef path3 scores31) ^ (k + 1) ∧
     totalPaths (pathCoef path3 scores31)
         = pathCoef path3 scores31 + indirectPaths (pathCoef path3 scores31)) :=
  ⟨by norm_num, effects_power_series (by norm_num) path3 scores31⟩

/-- Membership in the emitted effects table: exactly the rows built from
an ordered pair `(src, dst)` with distinct components and nonzero total
effect. -/
theorem mem_effectsTableWith {m : ℕ} (P ind tot : Matrix (Fin m) (Fin m) ℚ)
    (r : EffectRow m) :
    r ∈ effectsTableWith P ind tot ↔
      r.src ≠ r.dst ∧ tot r.dst r.src ≠ 0 ∧
        r = mkEffectRow P ind tot r.src r.dst := by
  constructor
  · intro hr
    rw [effectsTableWith, List.mem_flatMap] at hr
    obtain ⟨f, -, hr⟩ := hr
    rw [List.mem_filterMap] at hr
    obtain ⟨t, -, ht⟩ := hr
    by_cases hc : f ≠ t ∧ tot t f ≠ 0
    · rw [if_pos hc] at ht
      have hrt : r = mkEffectRow P ind tot f t := (Option.some_inj.mp ht).symm
      have hsrc : r.src = f := by rw [hrt]; rfl
      have hdst : r.dst = t := by rw [hrt]; rfl
      rw [hsrc, hdst]
      exact ⟨hc.1, hc.2, hrt⟩
    · rw [if_neg hc] at ht
      exact absurd ht (Option.noConfusion)
  · rintro ⟨h1, h2, h3⟩
    rw [effectsTableWith, List.mem_flatMap]
    refine ⟨r.src, List.mem_finRange _, ?_⟩
    rw [List.mem_filterMap]
    refine ⟨r.dst, List.mem_finRange _, ?_⟩
    rw [if_pos ⟨h1, h2⟩]
    exact congrArg some h3.symm

/-- The `(from, to)` pairs of the emitted rows are pairwise distinct:
`_effects` appends at most one row per ordered pair. -/
theorem effectsTableWith_pairs_nodup {m : ℕ}
    (P ind tot : Matrix (Fin m) (Fin m) ℚ) :
    ((effectsTableWith P ind tot).map fun r => (r.src, r.dst)).Nodup := by
  have hpush : ∀ f t : Fin m,
      Option.map (fun r : EffectRow m => (r.src, r.dst))
        (if f ≠ t ∧ tot t f ≠ 0 then some (mkEffectRow P ind tot f t)
         else none)
      = (if f ≠ t ∧ tot t f ≠ 0 then some (f, t) else none) := by
    intro f t
    by_cases hc : f ≠ t ∧ tot t f ≠ 0
    · rw [if_pos hc, if_pos hc]
      rfl
    · rw [if_neg hc, if_neg hc]
      rfl
  rw [effectsTableWith, List.map_flatMap]
  rw [List.nodup_flatMap]
  constructor
  · intro f _
    rw [List.map_filterMap]
    simp only [hpush]
    refine (List.nodup_finRange m).filterMap ?_
    intro t t' b hb hb'
    by_cases hc : f ≠ t ∧ tot t f ≠ 0
    · by_cases hc' : f ≠ t' ∧ tot t' f ≠ 0
      · rw [if_pos hc] at hb
        rw [if_pos hc'] at hb'
        have hbt : (f, t) = b := Option.some_inj.mp hb
        have hbt' : (f, t') = b := Option.some_inj.mp hb'
        have : (f, t) = (f, t') := hbt.trans hbt'.symm
        exact congrArg Prod.snd this
      · rw [if_neg hc'] at hb'
        exact absurd hb' (Option.noConfusion)
    · rw [if_neg hc] at hb
      exact absurd hb (Option.noConfusion)
  · refine List.Pairwise.imp ?_ (List.pairwise_lt_finRange m)
    intro f f' hff b hb hb'
    dsimp only at hb hb'
    rw [List.map_filterMap] at hb hb'
    simp only [hpush] at hb hb'
    rw [List.mem_filterMap] at hb hb'
    obtain ⟨t, -, ht⟩ := hb
    obtain ⟨t', -, ht'⟩ := hb'
    by_cases hc : f ≠ t ∧ tot t f ≠ 0
    · by_cases hc' : f' ≠ t' ∧ tot t' f' ≠ 0
      · rw [if_pos hc] at ht
        rw [if_pos hc'] at ht'
        have h1 : (f, t) = b := Option.some_inj.mp ht
        have h2 : (f', t') = b := Option.some_inj.mp ht'
        have : f = f' := congrArg Prod.fst (h1.trans h2.symm)
        exact absurd this (Fin.ne_of_lt hff)
      · rw [if_neg hc'] at ht'
        exact absurd ht' (Option.noConfusion)
    · rw [if_neg hc] at ht
      exact absurd ht (Option.noConfusion)

/-- Claim C2: for every path-coefficients matrix the effects table has a
row for an ordered pair `(from, to)` precisely when `from ≠ to` and the
total effect is nonzero, the pairs of its rows are pairwise distinct
(exactly one row per qualifying pair), every row's direct / indirect /
total values are the `[to, from]` entries of the corresponding matrices,
and no row carries a total effect of `0`. -/
theorem effects_rows_exactly_one {m : ℕ} (P : Matrix (Fin m) (Fin m) ℚ) :
    (∀ f t : Fin m,
       (∃ r ∈ effectsTable P, r.src = f ∧ r.dst = t) ↔
         f ≠ t ∧ totalPaths P t f ≠ 0) ∧
    ((effectsTable P).map fun r => (r.src, r.dst)).Nodup ∧
    (∀ r ∈ effectsTable P,
       r.direct = P r.dst r.src ∧
       r.indirect = indirectPaths P r.dst r.src ∧
       r.total = totalPaths P r.dst r.src ∧ r.total ≠ 0) := by
  refine ⟨?_, effectsTableWith_pairs_nodup _ _ _, ?_⟩
  · intro f t
    constructor
    · rintro ⟨r, hr, hf, ht⟩
      have h := (mem_effectsTableWith _ _ _ r).mp hr
      rw [hf, ht] at h
      exact ⟨h.1, h.2.1⟩
    · rintro ⟨h1, h2⟩
      refine ⟨mkEffectRow P (indirectPaths P) (totalPaths P) f t, ?_, rfl, rfl⟩
      exact (mem_effectsTableWith _ _ _ _).mpr ⟨h1, h2, rfl⟩
  · intro r hr
    have h := (mem_effectsTableWith _ _ _ r).mp hr
    obtain ⟨h1, h2, h3⟩ := h
    cases r with
    | mk s d dir ind tot =>
        simp only [mkEffectRow] at h3
        injection h3 with a1 a2 a3 a4 a5
        exact ⟨a3, a4, a5, by rw [a5]; exact h2⟩

/-- Witness for C2: the concrete coefficient matrix `coef2` yields the
single row `0 -> 1`, whose values are read off the matrices and whose
total is nonzero. -/
theorem effects_rows_exactly_one_witness :
    (∃ r ∈ effectsTable coef2, r.src = 0 ∧ r.dst = 1) ∧
    (∀ r ∈ effectsTable coef2,
       r.direct = coef2 r.dst r.src ∧
       r.indirect = indirectPaths coef2 r.dst r.src ∧
       r.total = totalPaths coef2 r.dst r.src ∧ r.total ≠ 0) :=
  ⟨((effects_rows_exactly_one coef2).1 0 1).mpr
      ⟨by decide, by norm_num [totalPaths, coef2]⟩,
   (effects_rows_exactly_one coef2).2.2⟩

/-- Identity `A * qInv A = 1` whenever the determinant is nonzero. -/
theorem qInv_mul {k : ℕ} (A : Matrix (Fin k) (Fin k) ℚ) (h : A.det ≠ 0) :
    A * qInv A = 1 := by
  rw [qInv, Matrix.mul_smul, Matrix.mul_adjugate, smul_smul,
    inv_mul_cancel₀ h, one_smul]

/-- The normal equations: `(XᵀX) β = Xᵀ y` for the OLS solution. -/
theorem olsBeta_normal {c k : ℕ} (X : Matrix (Fin c) (Fin k) ℚ)
    (y : Fin c → ℚ) (h : (X.transpose * X).det ≠ 0) :
    (X.transpose * X).mulVec (olsBeta X y) = X.transpose.mulVec y := by
  rw [olsBeta, Matrix.mulVec_mulVec, qInv_mul _ h, Matrix.one_mulVec]

/-- The OLS residual is annihilated by `Xᵀ`. -/
theorem residual_normal {c k : ℕ} (X : Matrix (Fin c) (Fin k) ℚ)
    (y : Fin c → ℚ) (h : (X.transpose * X).det ≠ 0) :
    X.transpose.mulVec (y - X.mulVec (olsBeta X y)) = 0 := by
  rw [Matrix.mulVec_sub, Matrix.mulVec_mulVec, olsBeta_normal X y h, sub_self]

/-- The OLS residual is orthogonal to every vector in the column space. -/
theorem residual_dot {c k : ℕ} (X : Matrix (Fin c) (Fin k) ℚ)
    (y : Fin c → ℚ) (h : (X.transpose * X).det ≠ 0) (u : Fin k → ℚ) :
    Matrix.dotProduct (y - X.mulVec (olsBeta X y)) (X.mulVec u) = 0 := by
  rw [Matrix.dotProduct_mulVec, ← Matrix.mulVec_transpose,
    residual_normal X y h, Matrix.zero_dotProduct]

/-- The OLS solution minimises the residual sum of squares. -/
theorem ssr_min {c k : ℕ} (X : Matrix (Fin c) (Fin k) ℚ) (y : Fin c → ℚ)
    (h : (X.transpose * X).det ≠ 0) (γ : Fin k → ℚ) :
    ssrOLS X y ≤ ∑ i, (y i - X.mulVec γ i) ^ 2 := by
  set β := olsBeta X y with hβ
  have expand : ∑ i, (y i - X.mulVec γ i) ^ 2
      = ssrOLS X y
        + 2 * Matrix.dotProduct (y - X.mulVec β) (X.mulVec (β - γ))
        + ∑ i, (X.mulVec (β - γ) i) ^ 2 := by
    rw [ssrOLS, Matrix.dotProduct, Finset.mul_sum, ← Finset.sum_add_distrib,
      ← Finset.sum_add_distrib]
    refine Finset.sum_congr rfl fun i _ => ?_
    have hkey : y i - X.mulVec γ i
        = (y i - X.mulVec β i) + X.mulVec (β - γ) i := by
      rw [Matrix.mulVec_sub, Pi.sub_apply]
      ring
    rw [hkey, Pi.sub_apply]
    ring
  rw [expand, residual_dot X y h (β - γ), mul_zero, add_zero]
  exact le_add_of_nonneg_right (Finset.sum_nonneg fun i _ => sq_nonneg _)

/-- With a constant column, the residual sum of squares is at most the
centered total sum of squares (the intercept-only fit). -/
theorem ssr_le_tss {c k : ℕ} (X : Matrix (Fin c) (Fin (k + 1)) ℚ)
    (y : Fin c → ℚ) (h : (X.transpose * X).det ≠ 0)
    (hone : ∀ i, X i 0 = 1) : ssrOLS X y ≤ tssOLS y := by
  have hγ : ∀ i, X.mulVec (fun j => if j = 0 then meanVec y else 0) i
      = meanVec y := by
    intro i
    rw [Matrix.mulVec, Matrix.dotProduct]
    have : ∀ j, X i j * (if j = 0 then meanVec y else 0)
        = if j = 0 then X i j * meanVec y else 0 := by
      intro j
      by_cases hj : j = 0
      · rw [if_pos hj, if_pos hj]
      · rw [if_neg hj, if_neg hj, mul_zero]
    rw [Finset.sum_congr rfl fun j _ => this j, Finset.sum_ite_eq' _ _ _]
    rw [if_pos (Finset.mem_univ _), hone i, one_mul]
  have hmin := ssr_min X y h (fun j => if j = 0 then meanVec y else 0)
  rw [tssOLS]
  refine le_trans hmin (le_of_eq ?_)
  exact Finset.sum_congr rfl fun i _ => by rw [hγ i]

/-- Bound `rsquared ≤ 1` for a fit with an intercept column and positive
centered total sum of squares. -/
theorem rsquared_le_one {c k : ℕ} (X : Matrix (Fin c) (Fin (k + 1)) ℚ)
    (y : Fin c → ℚ) (h : (X.transpose * X).det ≠ 0)
    (hone : ∀ i, X i 0 = 1) (htss : 0 < tssOLS y) : rsquaredOLS X y ≤ 1 := by
  have h0 : 0 ≤ ssrOLS X y / tssOLS y :=
    div_nonneg (Finset.sum_nonneg fun i _ => sq_nonneg _) htss.le
  rw [rsquaredOLS]
  linarith

/-- For a 0/1 path row, the row sum equals the number of predictors. -/
theorem sum_01_eq_count {m : ℕ} (path : Matrix (Fin m) (Fin m) ℚ)
    (dv : Fin m) :
    ∀ l : List (Fin m), (∀ j ∈ l, path dv j = 0 ∨ path dv j = 1) →
      (l.map (path dv)).sum
        = (((l.filter fun j => decide (path dv j = 1)).length : ℕ) : ℚ) := by
  intro l
  induction l with
  | nil => intro _; simp
  | cons a l ih =>
      intro hmem
      have ha := hmem a (List.mem_cons_self a l)
      have hrest := ih fun j hj => hmem j (List.mem_cons_of_mem a hj)
      rw [List.map_cons, List.sum_cons, hrest]
      by_cases h1 : path dv a = 1
      · rw [List.filter_cons, if_pos (decide_eq_true h1), List.length_cons]
        rw [h1]
        push_cast
        ring
      · have h0 : path dv a = 0 := ha.resolve_right h1
        rw [List.filter_cons,
          if_neg (by rw [decide_eq_true_eq]; exact h1), h0, zero_add]

/-- Sum `path.loc[dv].sum()` equals the predictor count for a 0/1 row. -/
theorem rowSum_eq_card {m : ℕ} (path : Matrix (Fin m) (Fin m) ℚ)
    (dv : Fin m) (h01 : ∀ j, path dv j = 0 ∨ path dv j = 1) :
    rowSum path dv = (((predList path dv).length : ℕ) : ℚ) := by
  rw [rowSum, Fin.sum_univ_def, predList]
  exact sum_01_eq_count path dv (List.finRange m) fun j _ => h01 j

/-- Claim C3: for an endogenous `dv` with a 0/1 path row, the stored
adjusted R² is `1 - (1 - R²)·(n-1)/(n-p-1)` with `n` the number of
cases, `p` the number of predictors of `dv`, and `R²` the coefficient of
determination of the OLS fit of `scores[dv]` on the predictor scores
plus an intercept. -/
theorem adj_rsq_formula {m c : ℕ} (path : Matrix (Fin m) (Fin m) ℚ)
    (scores : Matrix (Fin c) (Fin m) ℚ) (dv : Fin m)
    (h01 : ∀ i j, path i j = 0 ∨ path i j = 1) (hdv : endog path dv)
    (hn : (c : ℚ) - (((predList path dv).length : ℕ) : ℚ) - 1 ≠ 0) :
    rSqAdj path scores dv
      = 1 - (1 - rsquaredOLS (design scores (predList path dv))
              (yCol scores dv)) * ((c : ℚ) - 1)
          / ((c : ℚ) - (((predList path dv).length : ℕ) : ℚ) - 1) := by
  rw [rSqAdj, if_pos hdv, rSq, if_pos hdv,
    rowSum_eq_card path dv fun j => h01 dv j]

/-- Witness for C3 at the concrete 2-variable model with 4 cases. -/
theorem adj_rsq_formula_witness :
    (∀ i j, path2 i j = 0 ∨ path2 i j = 1) ∧ endog path2 1 ∧
    ((4 : ℚ) - (((predList path2 1).length : ℕ) : ℚ) - 1 ≠ 0) ∧
    rSqAdj path2 scores24 1
      = 1 - (1 - rsquaredOLS (design scores24 (predList path2 1))
              (yCol scores24 1)) * ((4 : ℚ) - 1)
          / ((4 : ℚ) - (((predList path2 1).length : ℕ) : ℚ) - 1) := by
  have h01 : ∀ i j, path2 i j = 0 ∨ path2 i j = 1 := by
    intro i j
    fin_cases i <;> fin_cases j <;> norm_num [path2]
  have hdv : endog path2 1 := by
    norm_num [endog, rowSum, Fin.sum_univ_two, path2]
  have hlen : (predList path2 1).length = 1 := by
    norm_num [predList, List.finRange, List.ofFn, List.filter, path2,
      Fin.isValue]
  have hn : (4 : ℚ) - (((predList path2 1).length : ℕ) : ℚ) - 1 ≠ 0 := by
    rw [hlen]
    norm_num
  exact ⟨h01, hdv, hn, adj_rsq_formula path2 scores24 1 h01 hdv hn⟩

/-- Claim C4: for a fitted endogenous latent variable with at least one
predictor, `n - p - 1 > 0`, an invertible normal-equations matrix and a
nonzero centered total sum of squares, the stored adjusted R² is at most
the stored R². -/
theorem adj_rsq_le_rsq {m c : ℕ} (path : Matrix (Fin m) (Fin m) ℚ)
    (scores : Matrix (Fin c) (Fin m) ℚ) (dv : Fin m)
    (h01 : ∀ i j, path i j = 0 ∨ path i j = 1) (hdv : endog path dv)
    (hp : 0 < (predList path dv).length)
    (hn : 0 < (c : ℚ) - (((predList path dv).length : ℕ) : ℚ) - 1)
    (hdet : ((design scores (predList path dv)).transpose
        * design scores (predList path dv)).det ≠ 0)
    (htss : 0 < tssOLS (yCol scores dv)) :
    rSqAdj path scores dv ≤ rSq path scores dv := by
  have hone : ∀ i, design scores (predList path dv) i 0 = 1 := fun i => rfl
  have hR := rsquared_le_one (design scores (predList path dv))
    (yCol scores dv) hdet hone htss
  rw [rSqAdj, if_pos hdv, rSq, if_pos hdv,
    rowSum_eq_card path dv fun j => h01 dv j]
  set R := rsquaredOLS (design scores (predList path dv)) (yCol scores dv)
    with hRdef
  set p : ℚ := (((predList path dv).length : ℕ) : ℚ) with hpdef
  have hq : 0 ≤ 1 - R := by linarith
  have hDN : (c : ℚ) - p - 1 ≤ (c : ℚ) - 1 := by
    have hp0 : (0 : ℚ) ≤ p := by rw [hpdef]; exact Nat.cast_nonneg _
    linarith
  have h1 : (1 : ℚ) ≤ ((c : ℚ) - 1) / ((c : ℚ) - p - 1) :=
    (one_le_div hn).mpr hDN
  have h2 := le_mul_of_one_le_right hq h1
  rw [mul_div_assoc]
  linarith

/-- Witness for C4 at the concrete 2-variable model with 4 cases. -/
theorem adj_rsq_le_rsq_witness :
    (∀ i j, path2 i j = 0 ∨ path2 i j = 1) ∧ endog path2 1 ∧
    0 < (predList path2 1).length ∧
    (0 < (4 : ℚ) - (((predList path2 1).length : ℕ) : ℚ) - 1) ∧
    ((design scores24 (predList path2 1)).transpose
        * design scores24 (predList path2 1)).det ≠ 0 ∧
    0 < tssOLS (yCol scores24 1) ∧
    rSqAdj path2 scores24 1 ≤ rSq path2 scores24 1 := by
  have h01 : ∀ i j, path2 i j = 0 ∨ path2 i j = 1 := by
    intro i j
    fin_cases i <;> fin_cases j <;> norm_num [path2]
  have hdv : endog path2 1 := by
    norm_num [endog, rowSum, Fin.sum_univ_two, path2]
  have hpl : predList path2 1 = [0] := by
    norm_num [predList, List.finRange, List.ofFn, List.filter, path2,
      Fin.isValue]
  have hp : 0 < (predList path2 1).length := by rw [hpl]; norm_num
  have hn : 0 < (4 : ℚ) - (((predList path2 1).length : ℕ) : ℚ) - 1 := by
    rw [hpl]
    norm_num
  have hdet2 : @Matrix.det (Fin 2) _ _ ℚ _
      ((design scores24 [0]).transpose * design scores24 [0]) ≠ 0 := by
    have hX : design scores24 [0] = X4 := by
      funext i k
      fin_cases i <;> fin_cases k <;> rfl
    rw [hX]
    have hXX : X4.transpose * X4 = Matrix.of ![![4, 6], ![6, 14]] := by
      funext i j
      fin_cases i <;> fin_cases j <;>
        norm_num [Matrix.mul_apply, Matrix.transpose_apply,
          Fin.sum_univ_four, X4, Matrix.vecHead, Matrix.vecTail]
    rw [hXX]
    norm_num [Matrix.det_fin_two_of]
  have hdet : ((design scores24 (predList path2 1)).transpose
      * design scores24 (predList path2 1)).det ≠ 0 := hdet2
  have htss : 0 < tssOLS (yCol scores24 1) := by
    norm_num [tssOLS, meanVec, yCol, Fin.sum_univ_four, scores24]
  exact ⟨h01, hdv, hp, hn, hdet, htss,
    adj_rsq_le_rsq path2 scores24 1 h01 hdv hp hn hdet htss⟩

/-- Claim C8: on an acyclic, zero-diagonal 2×2 path-coefficients matrix
the dedicated `num_lvs == 2` branch (indirect `0`, total `path`) agrees
with the general matrix-power-series loop: the loop's indirect and total
matrices coincide with the branch's, and the emitted effects table is
identical. -/
theorem two_lv_branch_equiv (P : Matrix (Fin 2) (Fin 2) ℚ)
    (hd0 : P 0 0 = 0) (hd1 : P 1 1 = 0) (hac : P 0 1 = 0 ∨ P 1 0 = 0) :
    indirectLoop P = indirectPaths P ∧ totalLoop P = totalPaths P ∧
    effectsTableWith P (indirectLoop P) (totalLoop P) = effectsTable P := by
  have hsq : P * P = 0 := by
    funext i j
    rw [Matrix.mul_apply, Fin.sum_univ_two, Matrix.zero_apply]
    fin_cases i <;> fin_cases j <;>
      rcases hac with h | h <;> simp [hd0, hd1, h]
  have hloop : indirectLoop P = 0 := by
    rw [indirectLoop_eq]
    norm_num [Finset.sum_range_one, pow_two, hsq]
  have h1 : indirectLoop P = indirectPaths P := by
    rw [hloop, indirectPaths, if_pos rfl]
  have h2 : totalLoop P = totalPaths P := by
    rw [totalLoop, hloop, add_zero, totalPaths, if_pos rfl]
  exact ⟨h1, h2, by rw [effectsTable, h1, h2]⟩

/-- Claim C5: with a 0/1 path matrix, exactly the latent variables with
positive row sum form the endogenous list (the regressed set), and every
exogenous variable keeps R² = 0, adjusted R² = 0 and an all-zero row of
the path-coefficients matrix. -/
theorem endogenous_characterisation {m c : ℕ}
    (path : Matrix (Fin m) (Fin m) ℚ) (scores : Matrix (Fin c) (Fin m) ℚ)
    (h01 : ∀ i j, path i j = 0 ∨ path i j = 1) :
    (∀ dv, dv ∈ endogenousList path ↔ 0 < rowSum path dv) ∧
    (∀ dv, ¬ endog path dv →
       rSq path scores dv = 0 ∧ rSqAdj path scores dv = 0 ∧
       ∀ j, pathCoef path scores dv j = 0) := by
  constructor
  · intro dv
    rw [endogenousList, List.mem_filter, decide_eq_true_eq]
    have hnn : (0 : ℚ) ≤ rowSum path dv := by
      rw [rowSum_eq_card path dv fun j => h01 dv j]
      exact Nat.cast_nonneg _
    constructor
    · rintro ⟨-, hne⟩
      exact lt_of_le_of_ne hnn (Ne.symm hne)
    · intro hpos
      exact ⟨List.mem_finRange _, ne_of_gt hpos⟩
  · intro dv hne
    refine ⟨by rw [rSq, if_neg hne], by rw [rSqAdj, if_neg hne], ?_⟩
    intro j
    rw [pathCoef]
    exact dif_neg fun hc => hne hc.1

/-- Witness for C5 at the concrete 2-variable model. -/
theorem endogenous_characterisation_witness :
    (∀ i j, path2 i j = 0 ∨ path2 i j = 1) ∧
    ((∀ dv, dv ∈ endogenousList path2 ↔ 0 < rowSum path2 dv) ∧
     (∀ dv, ¬ endog path2 dv →
        rSq path2 scores24 dv = 0 ∧ rSqAdj path2 scores24 dv = 0 ∧
        ∀ j, pathCoef path2 scores24 dv j = 0)) := by
  have h01 : ∀ i j, path2 i j = 0 ∨ path2 i j = 1 := by
    intro i j
    fin_cases i <;> fin_cases j <;> norm_num [path2]
  exact ⟨h01, endogenous_characterisation path2 scores24 h01⟩

/-- Claim C6: when indicator `i` belongs (per the outer design matrix)
to exactly latent variable `j₀`, its redundancy is its communality times
the R² of `j₀`; in particular it is `0` when `j₀` is exogenous
(R² = 0). -/
theorem redundancy_formula {p m : ℕ} (cl odm : Matrix (Fin p) (Fin m) ℚ)
    (r2 : Fin m → ℚ) (i : Fin p) (j₀ : Fin m)
    (hj : odm i j₀ = 1) (hz : ∀ j, j ≠ j₀ → odm i j = 0) :
    redundancy cl odm r2 i = communality cl odm i * r2 j₀ ∧
    (r2 j₀ = 0 → redundancy cl odm r2 i = 0) := by
  have haux : rSquaredAux odm r2 i = r2 j₀ := by
    rw [rSquaredAux]
    have hterm : ∀ j, (odm * Matrix.diagonal r2) i j = odm i j * r2 j :=
      fun j => by rw [Matrix.mul_diagonal]
    rw [Finset.sum_congr rfl fun j _ => hterm j]
    rw [Finset.sum_eq_single_of_mem j₀ (Finset.mem_univ _)
      fun b _ hb => by rw [hz b hb, zero_mul]]
    rw [hj, one_mul]
  refine ⟨by rw [redundancy, haux], ?_⟩
  intro h0
  rw [redundancy, haux, h0, mul_zero]

/-- Witness for C6: indicator 1 belongs to latent variable 1 only. -/
theorem redundancy_formula_witness :
    odm2 1 1 = 1 ∧ (∀ j, j ≠ 1 → odm2 1 j = 0) ∧
    (redundancy cl2 odm2 r22 1 = communality cl2 odm2 1 * r22 1 ∧
     (r22 1 = 0 → redundancy cl2 odm2 r22 1 = 0)) := by
  have hj : odm2 1 1 = 1 := by norm_num [odm2]
  have hz : ∀ j : Fin 2, j ≠ 1 → odm2 1 j = 0 := by
    intro j hne
    fin_cases j
    · norm_num [odm2]
    · exact absurd rfl hne
  exact ⟨hj, hz, redundancy_formula cl2 odm2 r22 1 1 hj hz⟩

/-- Claim C7: communality is always the square of the loading, and when
all cross-loadings lie in `[-1, 1]` and each design-matrix row has at
most one entry `1` (the rest `0`), every communality lies in `[0, 1]`. -/
theorem communality_sq_bounds {p m : ℕ} (cl odm : Matrix (Fin p) (Fin m) ℚ) :
    (∀ i, communality cl odm i = loading cl odm i ^ 2) ∧
    (∀ i, (∀ j, |cl i j| ≤ 1) → (∀ j, odm i j = 0 ∨ odm i j = 1) →
      (∀ j k, odm i j = 1 → odm i k = 1 → j = k) →
      0 ≤ communality cl odm i ∧ communality cl odm i ≤ 1) := by
  refine ⟨fun i => rfl, ?_⟩
  intro i habs h01 huniq
  by_cases hex : ∃ j, odm i j = 1
  · obtain ⟨j₀, hj⟩ := hex
    have hload : loading cl odm i = cl i j₀ := by
      rw [loading]
      rw [Finset.sum_eq_single_of_mem j₀ (Finset.mem_univ _) ?_]
      · rw [hj, mul_one]
      · intro b _ hb
        rcases h01 b with h0 | h1
        · rw [h0, mul_zero]
        · exact absurd (huniq b j₀ h1 hj) hb
    rw [communality, hload]
    exact ⟨sq_nonneg _, (sq_le_one_iff_abs_le_one (cl i j₀)).mpr (habs j₀)⟩
  · have hload : loading cl odm i = 0 := by
      rw [loading]
      refine Finset.sum_eq_zero fun j _ => ?_
      rcases h01 j with h0 | h1
      · rw [h0, mul_zero]
      · exact absurd ⟨j, h1⟩ hex
    rw [communality, hload]
    norm_num

/-- Witness for C7 at indicator 0 of the concrete outer model. -/
theorem communality_sq_bounds_witness :
    communality cl2 odm2 0 = loading cl2 odm2 0 ^ 2 ∧
    (∀ j, |cl2 0 j| ≤ 1) ∧ (∀ j, odm2 0 j = 0 ∨ odm2 0 j = 1) ∧
    (∀ j k, odm2 0 j = 1 → odm2 0 k = 1 → j = k) ∧
    (0 ≤ communality cl2 odm2 0 ∧ communality cl2 odm2 0 ≤ 1) := by
  have habs : ∀ j, |cl2 0 j| ≤ 1 := by
    intro j
    fin_cases j <;> norm_num [cl2, abs_le]
  have h01 : ∀ j, odm2 0 j = 0 ∨ odm2 0 j = 1 := by
    intro j
    fin_cases j <;> norm_num [odm2]
  have huniq : ∀ j k : Fin 2, odm2 0 j = 1 → odm2 0 k = 1 → j = k := by
    intro j k hjx hkx
    fin_cases j <;> fin_cases k <;> first
      | rfl
      | (exfalso; norm_num [odm2] at hjx hkx)
  exact ⟨(communality_sq_bounds cl2 odm2).1 0, habs, h01, huniq,
    (communality_sq_bounds cl2 odm2).2 0 habs h01 huniq⟩

/-- Witness for C8 at the concrete coefficient matrix `coef2`. -/
theorem two_lv_branch_equiv_witness :
    coef2 0 0 = 0 ∧ coef2 1 1 = 0 ∧ (coef2 0 1 = 0 ∨ coef2 1 0 = 0) ∧
    (indirectLoop coef2 = indirectPaths coef2 ∧
     totalLoop coef2 = totalPaths coef2 ∧
     effectsTableWith coef2 (indirectLoop coef2) (totalLoop coef2)
       = effectsTable coef2) :=
  ⟨by norm_num [coef2], by norm_num [coef2], Or.inl (by norm_num [coef2]),
   two_lv_branch_equiv coef2 (by norm_num [coef2]) (by norm_num [coef2])
     (Or.inl (by norm_num [coef2]))⟩

/-- Folding the per-`dv` loop body over a list of endogenous labels
succeeds iff every single lookup succeeds. -/
theorem foldlM_ok_iff (k : String → Except String Unit) :
    ∀ l : List String,
      List.foldlM (fun _ dv => k dv) () l = .ok () ↔
        ∀ dv ∈ l, k dv = .ok () := by
  intro l
  induction l with
  | nil =>
      constructor
      · intro _ dv h
        exact absurd h (List.not_mem_nil dv)
      · intro _
        rfl
  | cons a l ih =>
      rw [List.foldlM_cons]
      cases hk : k a with
      | error e =>
          constructor
          · intro h
            exact Except.noConfusion h
          · intro h
            have := h a (List.mem_cons_self a l)
            rw [hk] at this
            exact Except.noConfusion this
      | ok u =>
          cases u
          show List.foldlM (fun _ dv => k dv) () l = .ok () ↔ _
          rw [ih]
          constructor
          · intro h dv hdv
            rcases List.mem_cons.mp hdv with rfl | hmem
            · exact hk
            · exact h dv hmem
          · intro h dv hdv
            exact h dv (List.mem_cons_of_mem a hdv)

/-- The loop body for `dv` succeeds iff every `==1` predictor label and
`dv` itself occur among the scores columns. -/
theorem lookupsFor_ok_iff (lvs : List String) (path : String → String → ℚ)
    (cols : List String) (dv : String) :
    lookupsFor lvs path cols dv = .ok () ↔
      (∀ j ∈ lvs, path dv j = 1 → j ∈ cols) ∧ dv ∈ cols := by
  rw [lookupsFor]
  cases hfind : (lvs.filter fun j => decide (path dv j = 1)).find?
      (fun j => decide (j ∉ cols)) with
  | some j =>
      have hj := List.find?_some hfind
      rw [decide_eq_true_eq] at hj
      have hjm := List.mem_of_find?_eq_some hfind
      rw [List.mem_filter, decide_eq_true_eq] at hjm
      constructor
      · intro h
        exact Except.noConfusion h
      · rintro ⟨h1, -⟩
        exact absurd (h1 j hjm.1 hjm.2) hj
  | none =>
      have hall := List.find?_eq_none.mp hfind
      by_cases hdv : dv ∈ cols
      · rw [if_pos hdv]
        constructor
        · intro _
          refine ⟨?_, hdv⟩
          intro j hj h1
          have := hall j (List.mem_filter.mpr ⟨hj, decide_eq_true h1⟩)
          rw [decide_eq_true_eq] at this
          exact not_not.mp this
        · intro _
          rfl
      · rw [if_neg hdv]
        constructor
        · intro h
          exact Except.noConfusion h
        · rintro ⟨-, h2⟩
          exact absurd h2 hdv

/-- Characterisation of the label-level `InnerModel` construction: it
completes iff, for every endogenous label, the regressed labels (the
endogenous variable and its `==1` predictors) all occur among the scores
columns.  Labels of the path matrix that are never regressed may be
missing from the scores without causing any failure. -/
theorem innerConstruct_ok_char (lvs : List String)
    (path : String → String → ℚ) (cols : List String) :
    innerConstruct lvs path cols = .ok () ↔
      ∀ dv ∈ lvs, (lvs.map (path dv)).sum ≠ 0 →
        ((∀ j ∈ lvs, path dv j = 1 → j ∈ cols) ∧ dv ∈ cols) := by
  rw [innerConstruct, foldlM_ok_iff]
  constructor
  · intro h dv hdv hsum
    have hmem : dv ∈ lvs.filter fun d =>
        decide ((lvs.map (path d)).sum ≠ 0) :=
      List.mem_filter.mpr ⟨hdv, decide_eq_true hsum⟩
    exact (lookupsFor_ok_iff lvs path cols dv).mp (h dv hmem)
  · intro h dv hdv
    have hm := List.mem_filter.mp hdv
    rw [decide_eq_true_eq] at hm
    exact (lookupsFor_ok_iff lvs path cols dv).mpr (h dv hm.1 hm.2)

/-- Claim C9 (corrected): the claim that every label-set mismatch fails
at construction is false — the concrete 3-variable path matrix over
`{A, B, C}` with the single arrow `A → B` constructs successfully
against a scores table whose columns are only `{A, B}`, although the
label sets differ (`C` is missing). -/
theorem mismatched_labels_construct_ok :
    ("C" ∈ lvsABC ∧ "C" ∉ colsAB) ∧
    innerConstruct lvsABC cpathAB colsAB = .ok () := by
  refine ⟨⟨by simp [lvsABC], by simp [colsAB]⟩, ?_⟩
  rw [innerConstruct_ok_char]
  intro dv hdv hsum
  simp only [lvsABC, List.mem_cons, List.not_mem_nil, or_false] at hdv
  rcases hdv with rfl | rfl | rfl
  · exfalso
    apply hsum
    simp only [cpathAB, lvsABC, List.map_cons, List.map_nil,
      List.sum_cons, List.sum_nil]
    rw [if_neg (show ¬(("A" : String) = "B" ∧ True) by simp),
      if_neg (show ¬(("A" : String) = "B" ∧ ("B" : String) = "A") by simp),
      if_neg (show ¬(("A" : String) = "B" ∧ ("C" : String) = "A") by simp)]
    norm_num
  · constructor
    · intro j hj h1
      simp only [lvsABC, List.mem_cons, List.not_mem_nil, or_false] at hj
      rcases hj with rfl | rfl | rfl
      · simp [colsAB]
      · simp [colsAB]
      · exfalso
        have h2 : cpathAB "B" "C" = 0 := by
          simp only [cpathAB]
          rw [if_neg (show ¬(True ∧ ("C" : String) = "A") by simp)]
        rw [h2] at h1
        norm_num at h1
    · simp [colsAB]
  · exfalso
    apply hsum
    simp only [cpathAB, lvsABC, List.map_cons, List.map_nil,
      List.sum_cons, List.sum_nil]
    rw [if_neg (show ¬(("C" : String) = "B" ∧ True) by simp),
      if_neg (show ¬(("C" : String) = "B" ∧ ("B" : String) = "A") by simp),
      if_neg (show ¬(("C" : String) = "B" ∧ ("C" : String) = "A") by simp)]
    norm_num

/-- Claim C9 (amended): construction of the label-level `InnerModel`
fails exactly when a label that the regressions actually use — an
endogenous variable or one of its `==1` predictors — is missing from
the scores columns; any other label-set mismatch (extra scores columns,
or path labels never regressed) completes construction without error. -/
theorem construct_failure_characterised (lvs : List String)
    (path : String → String → ℚ) (cols : List String) :
    innerConstruct lvs path cols = .ok () ↔
      ∀ dv ∈ lvs, (lvs.map (path dv)).sum ≠ 0 →
        ((∀ j ∈ lvs, path dv j = 1 → j ∈ cols) ∧ dv ∈ cols) :=
  innerConstruct_ok_char lvs path cols

/-- Witness for the amended C9 at the concrete mismatched inputs. -/
theorem construct_failure_characterised_witness :
    innerConstruct lvsABC cpathAB colsAB = .ok () ↔
      ∀ dv ∈ lvsABC, (lvsABC.map (cpathAB dv)).sum ≠ 0 →
        ((∀ j ∈ lvsABC, cpathAB dv j = 1 → j ∈ colsAB) ∧ dv ∈ colsAB) :=
  construct_failure_characterised lvsABC cpathAB colsAB

/-- The `_effects` loop on the zero matrix accumulates nothing. -/
theorem totalPaths_zero {m : ℕ} :
    totalPaths (0 : Matrix (Fin m) (Fin m) ℚ) = 0 := by
  rw [totalPaths]
  by_cases h : m = 2
  · rw [if_pos h]
  · rw [if_neg h, totalLoop, indirectLoop_eq,
      Finset.sum_eq_zero fun i _ => zero_pow (by omega), add_zero]

/-- Function `_effects` emits no rows on the zero matrix. -/
theorem effectsTable_zero {m : ℕ} :
    effectsTable (0 : Matrix (Fin m) (Fin m) ℚ) = [] := by
  rw [effectsTable, effectsTableWith]
  refine List.flatMap_eq_nil_iff.mpr fun f _ => ?_
  refine List.filterMap_eq_nil_iff.mpr fun t _ => ?_
  rw [if_neg]
  rintro ⟨-, h2⟩
  rw [totalPaths_zero] at h2
  exact h2 (Matrix.zero_apply _ _)

/-- Claim C10: when every row sum of the path matrix is zero there is no
endogenous variable; construction still completes (last conjunct, at
label level), the summaries stay the `None` sentinel so the
`inner_model()` accessor fails, while the path-coefficients matrix, the
R² and adjusted-R² series and the effects table are returned as their
zero / empty defaults. -/
theorem no_endogenous_behaviour {m c : ℕ} (path : Matrix (Fin m) (Fin m) ℚ)
    (scores : Matrix (Fin c) (Fin m) ℚ) (hz : ∀ dv, rowSum path dv = 0) :
    endogenousList path = [] ∧
    summariesOpt path scores = none ∧
    innerModelAccessor path scores = none ∧
    pathCoef path scores = 0 ∧
    (∀ dv, rSq path scores dv = 0) ∧
    (∀ dv, rSqAdj path scores dv = 0) ∧
    innerEffects path scores = [] ∧
    (∀ (lvs : List String) (p2 : String → String → ℚ) (cols : List String),
       (∀ dv ∈ lvs, (lvs.map (p2 dv)).sum = 0) →
       innerConstruct lvs p2 cols = .ok ()) := by
  have hne : ∀ dv, ¬ endog path dv := fun dv h => h (hz dv)
  have hel : endogenousList path = [] := by
    rw [endogenousList]
    exact List.filter_eq_nil_iff.mpr fun dv _ => by simp [hne dv]
  have hpc : pathCoef path scores = 0 := by
    funext dv j
    rw [Matrix.zero_apply, pathCoef]
    exact dif_neg fun hcon => hne dv hcon.1
  refine ⟨hel, ?_, ?_, hpc, ?_, ?_, ?_, ?_⟩
  · rw [summariesOpt, hel]
    rfl
  · rw [innerModelAccessor, summariesOpt, hel]
    rfl
  · intro dv
    rw [rSq, if_neg (hne dv)]
  · intro dv
    rw [rSqAdj, if_neg (hne dv)]
  · rw [innerEffects, hpc, effectsTable_zero]
  · intro lvs p2 cols hzero
    rw [innerConstruct_ok_char]
    intro dv hdv hsum
    exact absurd (hzero dv hdv) hsum

/-- Witness for C10 at the 2×2 zero path matrix. -/
theorem no_endogenous_behaviour_witness :
    (∀ dv, rowSum (0 : Matrix (Fin 2) (Fin 2) ℚ) dv = 0) ∧
    (endogenousList (0 : Matrix (Fin 2) (Fin 2) ℚ) = [] ∧
     summariesOpt (0 : Matrix (Fin 2) (Fin 2) ℚ) scores24 = none ∧
     innerModelAccessor (0 : Matrix (Fin 2) (Fin 2) ℚ) scores24 = none ∧
     pathCoef (0 : Matrix (Fin 2) (Fin 2) ℚ) scores24 = 0 ∧
     (∀ dv, rSq (0 : Matrix (Fin 2) (Fin 2) ℚ) scores24 dv = 0) ∧
     (∀ dv, rSqAdj (0 : Matrix (Fin 2) (Fin 2) ℚ) scores24 dv = 0) ∧
     innerEffects (0 : Matrix (Fin 2) (Fin 2) ℚ) scores24 = [] ∧
     (∀ (lvs : List String) (p2 : String → String → ℚ)
        (cols : List String),
        (∀ dv ∈ lvs, (lvs.map (p2 dv)).sum = 0) →
        innerConstruct lvs p2 cols = .ok ())) := by
  have hz : ∀ dv, rowSum (0 : Matrix (Fin 2) (Fin 2) ℚ) dv = 0 := by
    intro dv
    simp [rowSum, Matrix.zero_apply]
  exact ⟨hz, no_endogenous_behaviour 0 scores24 hz⟩

end Plspm
